import Mathlib

/-!
Verification of the `seq` package (TuftsBCB/seq): a shallow embedding of
the package's probability algebra, emission tables, profile-HMM Viterbi
engine and Needleman-Wunsch global alignment engine, together with proofs
of the specified properties.

Modelling conventions:
* Go's `float64` scores (`Prob`) are modelled as exact rationals `ℚ`.
  Every property proved here only compares results of identical operation
  sequences, so the choice of carrier does not affect any statement.
* Go's `int` alignment scores are modelled as `ℤ` (exact in Go as well).
* A `Residue` (a Go `byte`) is modelled as `ℕ`; the byte wrap-around of
  `r - offset` in `EProbs` is made explicit as arithmetic modulo 256.
* Go slices are modelled as `List`; in-place mutation becomes functional
  update.  Accesses that would panic in Go (out-of-range indexing) are
  modelled with `Option` results or are out of range only on executions
  the source itself never performs (noted at each definition).
-/

namespace Seq

/-- The gap symbol `'-'` (byte 45).  Go `seq.Residue` (a single byte)
is modelled as a plain `Nat`; byte-wrapping operations take the modulus
explicitly. -/
def gapResidue : Nat := 45

/-- Go `seq.Sequence` (doc.go): a named list of residues. -/
structure Sequence where
  Name : String
  Residues : List Nat
deriving Repr, DecidableEq

/-- Go `Sequence.Len`. -/
def Sequence.Len (s : Sequence) : Nat := s.Residues.length

/-- Go `seq.Prob` (hmm.go): a probability as a negative-log score,
`float64` in the source, modelled as `ℚ`. -/
abbrev Prob := Rat

/-- Go `seq.MinProb = math.MaxFloat64`, the sentinel for probability 0.
`math.MaxFloat64` is exactly `(2^53 - 1) * 2^971 = 2^1024 - 2^971`,
written here as its decimal literal so that it evaluates without
unfolding rational power/subtraction (see `MinProb_eq`). -/
def MinProb : Prob := 179769313486231570814527423731704356798070567525844996598917476803157260780028538760589558632766878171540458953514382464234321326889464182768467546703537516986049910576551282076245490090389328944075868508455133942304583236903222948165808559332123348274797826204144723168738177180919299881250404026184124858368

/-- The sentinel is exactly `math.MaxFloat64 = 2^1024 - 2^971`. -/
theorem MinProb_eq : MinProb = 2 ^ 1024 - 2 ^ 971 := by
  rw [MinProb]
  norm_num

/-- Go `Prob.Less` (hmm.go): `p1` is a smaller probability than `p2`,
i.e. `p1 > p2` numerically (negative-log scores). -/
def Prob.Less (p1 p2 : Prob) : Prop := p1 > p2

instance (p1 p2 : Prob) : Decidable (p1.Less p2) := by
  unfold Prob.Less; infer_instance

/-- Go `Prob.IsMin` (hmm.go). -/
def Prob.IsMin (p : Prob) : Prop := p = MinProb

instance (p : Prob) : Decidable p.IsMin := by
  unfold Prob.IsMin; infer_instance

/-- Go `seq.NewProb` (hmm.go): `"*"` parses to `MinProb`; otherwise the
string is parsed as a float, failing with an error naming the offending
text.  The call to `strconv.ParseFloat` (Go standard library, outside
this repository) is abstracted as the parameter `parseFloat`. -/
def NewProb (parseFloat : String → Option Prob) (fstr : String) : Except String Prob :=
  if fstr = "*" then Except.ok MinProb
  else
    match parseFloat fstr with
    | some f => Except.ok f
    | none => Except.error ("Could not convert " ++ fstr ++ " to a log probability")

/-- Go `Prob.String` (hmm.go): the sentinel prints as `"*"`, any other
value prints as the float literal.  `fmt.Sprintf stdmod v` of a float
(Go standard library, outside this repository) is abstracted as the
parameter `formatFloat`. -/
def Prob.toText (formatFloat : Prob → String) (p : Prob) : String :=
  if p.IsMin then "*" else formatFloat p

/-- Go `seq.EProbs` (hmm.go, second half): a dense offset-indexed vector
of emission probabilities. -/
structure EProbs where
  Offset : Nat
  Probs : List Prob
deriving Repr, DecidableEq, Inhabited

/-- Go `seq.NewEProbs` (hmm.go): scan the alphabet for its minimum and
maximum byte values and allocate a dense vector of `MinProb`.  The Go
length expression `1 + max - offset` is `byte` arithmetic, hence the
modulus; `offset ≤ 255` always holds (it starts at 255 and only
decreases), so the `ℕ` subtraction never truncates. -/
def NewEProbs (alphabet : List Nat) : EProbs :=
  let offset := alphabet.foldl (fun o r => if r < o then r else o) 255
  let mx := alphabet.foldl (fun m r => if r > m then r else m) 0
  { Offset := offset
    Probs := List.replicate ((1 + mx + 256 - offset) % 256) MinProb }

/-- Go `EProbs.Lookup` (hmm.go): `i := r - ep.Offset` in `byte`
arithmetic (the Go test `i < 0` is vacuous on an unsigned byte), then a
bounds check returning `MinProb` on a miss. -/
def EProbs.Lookup (ep : EProbs) (r : Nat) : Prob :=
  let i := (r + 256 - ep.Offset) % 256
  if h : i < ep.Probs.length then ep.Probs.get ⟨i, h⟩ else MinProb

/-- Go `EProbs.Set` (hmm.go): unchecked store at `r - ep.Offset` (byte
arithmetic).  Go panics out of range; `List.set` is a no-op there — all
uses in this development are in range. -/
def EProbs.Set (ep : EProbs) (r : Nat) (p : Prob) : EProbs :=
  { ep with Probs := ep.Probs.set ((r + 256 - ep.Offset) % 256) p }

/-- Go `seq.TProbs` (hmm.go): the seven Plan7 transition scores. -/
structure TProbs where
  MM : Prob
  MI : Prob
  MD : Prob
  IM : Prob
  II : Prob
  DM : Prob
  DD : Prob
deriving Repr, DecidableEq, Inhabited

/-- Go `seq.HMMNode` (hmm.go). -/
structure HMMNode where
  Residue : Nat
  NodeNum : Int
  InsEmit : EProbs
  MatEmit : EProbs
  Transitions : TProbs
  NeffM : Prob
  NeffI : Prob
  NeffD : Prob
deriving Repr, DecidableEq, Inhabited

/-- Go `seq.HMM` (hmm.go). -/
structure HMM where
  Nodes : List HMMNode
  Alphabet : List Nat
  Null : EProbs
deriving Repr, DecidableEq

/-- Go `seq.HMMState` (hmm.go): `Match = 0`, `Deletion = 1`,
`Insertion = 2`, `Begin = 3`, `End = 4`. -/
inductive HMMState where
  | Match
  | Deletion
  | Insertion
  | Begin
  | End
deriving Repr, DecidableEq

/-- The numeric value of an `HMMState` constant (its `iota` in Go). -/
def HMMState.toNat : HMMState → Nat
  | .Match => 0
  | .Deletion => 1
  | .Insertion => 2
  | .Begin => 3
  | .End => 4

/-- Go `seq.DynamicTable` (hmm.go, second half): a flat score buffer
`3 × (#nodes + 1) × (seqLen + 1)` plus the node dimension. -/
structure DynamicTable where
  scores : List Prob
  nodes : Nat
deriving Repr, DecidableEq

/-- Go `DynamicTable.index` (hmm.go). -/
def DynamicTable.index (t : DynamicTable) (state : HMMState) (node obs : Nat) : Nat :=
  state.toNat + 3 * (node + t.nodes * obs)

/-- Read of `t.scores[i]`.  Go panics out of range; every read performed
by the engine below is in range for a correctly dimensioned table. -/
def DynamicTable.getP (t : DynamicTable) (i : Nat) : Prob :=
  t.scores.getD i MinProb

/-- Go `DynamicTable.set` (hmm.go): store `p` only when it beats
(`Less`, i.e. is numerically below) the value already present. -/
def DynamicTable.set (t : DynamicTable) (state : HMMState) (node obs : Nat) (p : Prob) :
    DynamicTable :=
  let i := t.index state node obs
  if (t.getP i).Less p then { t with scores := t.scores.set i p } else t

/-- Go `DynamicTable.reset` (hmm.go): refill every slot with `MinProb`. -/
def DynamicTable.reset (t : DynamicTable) : DynamicTable :=
  { t with scores := List.replicate t.scores.length MinProb }

/-- Go `seq.AllocTable` (hmm.go): fresh table of
`3 * (numNodes + 1) * (seqLen + 1)` slots (zeroed by `make`, then reset
to `MinProb`). -/
def AllocTable (numNodes seqLen : Nat) : DynamicTable :=
  let nodes := numNodes + 1
  DynamicTable.reset { scores := List.replicate (3 * nodes * (seqLen + 1)) 0, nodes := nodes }

/-- The body of the inner (`obs`) loop of Go `HMM.ViterbiScoreMem`
(hmm.go lines 377-400), one `(node, obs)` iteration, with reads and
conditional stores in the source's order. -/
def viterbiStep (hmm : HMM) (seq : Sequence) (node : Nat) (t : DynamicTable) (obs : Nat) :
    DynamicTable :=
  let trans := (hmm.Nodes.getD node default).Transitions
  let residue := seq.Residues.getD obs 0
  let iemit := (hmm.Nodes.getD node default).InsEmit.Lookup residue
  let memit : Prob :=
    if node + 1 < hmm.Nodes.length then
      (hmm.Nodes.getD (node + 1) default).MatEmit.Lookup residue
    else 0
  let here := t.getP (t.index .Match node obs)
  let t := t.set .Insertion node (obs + 1) (here + trans.MI + iemit)
  let t := t.set .Match (node + 1) (obs + 1) (here + trans.MM + memit)
  let t := t.set .Deletion (node + 1) obs (here + trans.MD)
  let here := t.getP (t.index .Insertion node obs)
  let t := t.set .Insertion node (obs + 1) (here + trans.II + iemit)
  let t := t.set .Match (node + 1) (obs + 1) (here + trans.IM + memit)
  let here := t.getP (t.index .Deletion node obs)
  let t := t.set .Match (node + 1) (obs + 1) (here + trans.DM + memit)
  let t := t.set .Deletion (node + 1) obs (here + trans.DD)
  t

/-- Go `HMM.ViterbiScoreMem` (hmm.go): reset the caller's table, seed
the begin cell, run the double loop, and read the final match cell. -/
def HMM.ViterbiScoreMem (hmm : HMM) (seq : Sequence) (table : DynamicTable) : Prob :=
  let t0 := table.reset
  let t1 : DynamicTable := { t0 with scores := t0.scores.set (t0.index .Match 0 0) 0 }
  let t2 := (List.range hmm.Nodes.length).foldl
    (fun t node => (List.range seq.Len).foldl (viterbiStep hmm seq node) t) t1
  t2.getP (t2.index .Match hmm.Nodes.length seq.Len)

/-- Go `HMM.ViterbiScore` (hmm.go): allocate and delegate. -/
def HMM.ViterbiScore (hmm : HMM) (seq : Sequence) : Prob :=
  hmm.ViterbiScoreMem seq (AllocTable hmm.Nodes.length seq.Len)

/-- The transition record Go `HMM.Slice` forces onto the last node:
`MM = IM = DM = 0`, `MI = MD = II = DD = MinProb`. -/
def sliceTProbs : TProbs :=
  { MM := 0, MI := MinProb, MD := MinProb, IM := 0, II := MinProb, DM := 0, DD := MinProb }

/-- Go `HMM.Slice` (hmm.go): copy nodes `[start, stop)` and force the
last copied node's transitions.  Go panics when `stop < start` (negative
`make` length), `stop > len(Nodes)` (slice bound) or `stop = start` (the
write indexes position `-1` of an empty slice); those executions are
`none` here. -/
def HMM.Slice (hmm : HMM) (start stop : Nat) : Option HMM :=
  if start < stop ∧ stop ≤ hmm.Nodes.length then
    let nodes := (hmm.Nodes.drop start).take (stop - start)
    let last := nodes.length - 1
    some
      { Nodes := nodes.set last
          { nodes.getD last default with Transitions := sliceTProbs }
        Alphabet := hmm.Alphabet
        Null := hmm.Null }
  else none

/-- Go `seq.MatLookup` (alphabets.go, second half): a substitution
scoring function. -/
abbrev MatLookup := Nat → Nat → Int

/-- Go `seq.Alignment` (alphabets.go). -/
structure Alignment where
  A : List Nat
  B : List Nat
deriving Repr, DecidableEq

/-- Go `max3` (alphabets.go). -/
def max3 (a b c : Int) : Int :=
  if a > b ∧ a > c then a
  else if b > c then b
  else c

/-- Row `i ≥ 1` of the Needleman-Wunsch score matrix of Go
`NeedlemanWunsch` (alphabets.go), given the previous row: cell `0` is
the initialized `gapPenalty * i`; each interior cell is the `max3` of
its three predecessors, exactly the inner (`j`) loop of the source. -/
def nwRow (A B : List Nat) (subst : MatLookup) (prev : Nat → Int) (i : Nat) :
    Nat → Int
  | 0 => subst gapResidue gapResidue * i
  | j + 1 =>
    max3 (prev j + subst (A.getD (i - 1) 0) (B.getD j 0))
      (prev (j + 1) + subst gapResidue gapResidue)
      (nwRow A B subst prev i j + subst gapResidue gapResidue)

/-- The rows of the Go score matrix, built top to bottom as in the
source's outer (`i`) loop; row 0 is the initialized `gapPenalty * j`.
The Go source fills a write-once flat array row by row; each cell is
written exactly once, from cells already final, so the final array
contents are exactly these rows. -/
def nwMatrixAux (A B : List Nat) (subst : MatLookup) : Nat → Nat → Int
  | 0 => fun j => subst gapResidue gapResidue * j
  | i + 1 => nwRow A B subst (nwMatrixAux A B subst i) (i + 1)

/-- Cell `(i, j)` of the final Go score matrix. -/
def nwMatrix (A B : List Nat) (subst : MatLookup) (i j : Nat) : Int :=
  nwMatrixAux A B subst i j

/-- Boundary row of the score matrix. -/
theorem nwMatrix_zero_left (A B : List Nat) (subst : MatLookup) (j : Nat) :
    nwMatrix A B subst 0 j = subst gapResidue gapResidue * j := rfl

/-- Boundary column of the score matrix. -/
theorem nwMatrix_zero_right (A B : List Nat) (subst : MatLookup) (i : Nat) :
    nwMatrix A B subst i 0 = subst gapResidue gapResidue * i := by
  cases i <;> rfl

/-- Interior recurrence of the score matrix: each cell is the `max3` of
diagonal, upper and left predecessors, as in the source's fill loop. -/
theorem nwMatrix_succ (A B : List Nat) (subst : MatLookup) (i j : Nat) :
    nwMatrix A B subst (i + 1) (j + 1) =
      max3 (nwMatrix A B subst i j + subst (A.getD i 0) (B.getD j 0))
        (nwMatrix A B subst i (j + 1) + subst gapResidue gapResidue)
        (nwMatrix A B subst (i + 1) j + subst gapResidue gapResidue) := rfl

/-- The traceback loop of Go `NeedlemanWunsch` (alphabets.go), producing
the alignment in the reversed (as-visited) order of the Go loop; `none`
is the `panic` branch.  The three branches are checked in the source's
priority order: diagonal, vertical gap, horizontal gap.  The Go
`for i > 0 || j > 0` loop decreases `i + j` by at least one per
iteration, so running it with `fuel = i + j` (see `nwTraceRev`) is the
loop itself; the fuel-exhaustion arm is unreachable from that entry
(`nwTraceRev_struct` below never meets it). -/
def nwTraceRevGo (A B : List Nat) (subst : MatLookup) :
    Nat → Nat → Nat → Option (List Nat × List Nat)
  | _, 0, 0 => some ([], [])
  | 0, _, _ => none
  | fuel + 1, i, j =>
    let gp := subst gapResidue gapResidue
    if 0 < i ∧ 0 < j ∧
        nwMatrix A B subst i j =
          nwMatrix A B subst (i - 1) (j - 1) + subst (A.getD (i - 1) 0) (B.getD (j - 1) 0) then
      match nwTraceRevGo A B subst fuel (i - 1) (j - 1) with
      | some (ra, rb) => some (A.getD (i - 1) 0 :: ra, B.getD (j - 1) 0 :: rb)
      | none => none
    else if 0 < i ∧ nwMatrix A B subst i j = nwMatrix A B subst (i - 1) j + gp then
      match nwTraceRevGo A B subst fuel (i - 1) j with
      | some (ra, rb) => some (A.getD (i - 1) 0 :: ra, gapResidue :: rb)
      | none => none
    else if 0 < j ∧ nwMatrix A B subst i j = nwMatrix A B subst i (j - 1) + gp then
      match nwTraceRevGo A B subst fuel i (j - 1) with
      | some (ra, rb) => some (gapResidue :: ra, B.getD (j - 1) 0 :: rb)
      | none => none
    else none

/-- The Go traceback loop entered at `(i, j)`. -/
def nwTraceRev (A B : List Nat) (subst : MatLookup) (i j : Nat) :
    Option (List Nat × List Nat) :=
  nwTraceRevGo A B subst (i + j) i j

/-- Go `seq.NeedlemanWunsch` (alphabets.go): build the matrix, trace
back from `(|A|, |B|)`, and reverse the accumulated alignment.  The Go
`panic` branch is `none`. -/
def NeedlemanWunsch (A B : List Nat) (subst : MatLookup) : Option Alignment :=
  (nwTraceRev A B subst A.length B.length).map
    (fun rab => { A := rab.1.reverse, B := rab.2.reverse })

/-! ### Concrete scenario C of the spec (§8): a 2-node HMM over `{X}` -/

/-- Match-emission table over the alphabet `{X}` (`'X'` is byte 88)
with `lookup 'X' = 0`. -/
def eProbsX : EProbs := (NewEProbs [88]).Set 88 0

/-- A node of scenario C: transitions `MM = IM = DM = 0`, all others
`MinProb`; insertion emissions all `MinProb`. -/
def nodeC9 : HMMNode :=
  { Residue := 88, NodeNum := 0, InsEmit := NewEProbs [88], MatEmit := eProbsX,
    Transitions := { MM := 0, MI := MinProb, MD := MinProb, IM := 0,
                     II := MinProb, DM := 0, DD := MinProb },
    NeffM := 0, NeffI := 0, NeffD := 0 }

/-- The 2-node HMM of scenario C. -/
def hmmC9 : HMM := { Nodes := [nodeC9, nodeC9], Alphabet := [88], Null := NewEProbs [88] }

/-- The sequence `"XX"`. -/
def seqXX : Sequence := { Name := "XX", Residues := [88, 88] }

/-! ### HMM.Slice -/

/-- C10: `hmm.Slice(start, end)` is a Go panic (modelled `none`) when
`end = start` — the forced-transition write indexes position `-1` of an
empty node slice — and more generally `Slice` succeeds exactly when
`start < end ≤ len(hmm.Nodes)`, a precondition the spec does not state. -/
theorem HMM.Slice_isSome_iff (hmm : HMM) (s e : Nat) :
    hmm.Slice s s = none ∧
      ((hmm.Slice s e).isSome ↔ s < e ∧ e ≤ hmm.Nodes.length) := by
  constructor
  · simp [HMM.Slice]
  · unfold HMM.Slice
    split
    · next h => simp [h]
    · next h => simp [h]

/-- C8: slicing an `n`-node HMM (`n ≥ 1`) over its whole node range
yields an HMM with the same alphabet and null model whose nodes agree
with the original on every node but the last; the last node keeps its
residue, node number, emission tables and effective counts and only its
transition record is replaced by `MM = IM = DM = 0`,
`MI = MD = II = DD = MinProb`.  The input HMM is a read-only argument of
the functional embedding, so its own nodes are unchanged. -/
theorem HMM.Slice_full (hmm : HMM) (n : Nat)
    (hn : hmm.Nodes.length = n) (h1 : 1 ≤ n) :
    hmm.Slice 0 n =
      some { Nodes := hmm.Nodes.take (n - 1) ++
               [{ hmm.Nodes.getD (n - 1) default with Transitions := sliceTProbs }],
             Alphabet := hmm.Alphabet, Null := hmm.Null } := by
  have hcond : 0 < n ∧ n ≤ hmm.Nodes.length := by omega
  rw [HMM.Slice, if_pos hcond]
  have htake : (hmm.Nodes.drop 0).take (n - 0) = hmm.Nodes := by
    rw [List.drop_zero, Nat.sub_zero, ← hn, List.take_length]
  have hlt : n - 1 < hmm.Nodes.length := by omega
  simp only [htake, hn]
  rw [List.set_eq_take_cons_drop _ hlt]
  have hdrop : hmm.Nodes.drop (n - 1 + 1) = [] := by
    apply List.drop_eq_nil_of_le; omega
  rw [hdrop]

/-- Witness for C8 at a concrete two-node HMM. -/
theorem HMM.Slice_full_witness :
    (hmmC9.Nodes.length = 2 ∧ 1 ≤ 2) ∧
      hmmC9.Slice 0 2 =
        some { Nodes := hmmC9.Nodes.take 1 ++
                 [{ hmmC9.Nodes.getD 1 default with Transitions := sliceTProbs }],
               Alphabet := hmmC9.Alphabet, Null := hmmC9.Null } :=
  ⟨⟨rfl, by omega⟩, HMM.Slice_full hmmC9 2 rfl (by omega)⟩

/-! ### Emission-table span facts (for the out-of-span lookup claim) -/

/-- The running minimum of `NewEProbs` never exceeds its seed. -/
theorem foldlMin_le_init (l : List Nat) (i : Nat) :
    l.foldl (fun o r => if r < o then r else o) i ≤ i := by
  induction l generalizing i with
  | nil => exact Nat.le_refl i
  | cons a l ih =>
    simp only [List.foldl_cons]
    refine Nat.le_trans (ih _) ?_
    split <;> omega

/-- The running minimum of `NewEProbs` is at most every scanned residue. -/
theorem foldlMin_le_mem (l : List Nat) (i a : Nat) (ha : a ∈ l) :
    l.foldl (fun o r => if r < o then r else o) i ≤ a := by
  induction l generalizing i with
  | nil => cases ha
  | cons b l ih =>
    simp only [List.foldl_cons]
    rcases List.mem_cons.mp ha with hb | hl
    · subst hb
      refine Nat.le_trans (foldlMin_le_init _ _) ?_
      split <;> omega
    · exact ih _ hl

/-- The running maximum of `NewEProbs` is at least its seed. -/
theorem init_le_foldlMax (l : List Nat) (i : Nat) :
    i ≤ l.foldl (fun m r => if r > m then r else m) i := by
  induction l generalizing i with
  | nil => exact Nat.le_refl i
  | cons a l ih =>
    simp only [List.foldl_cons]
    refine Nat.le_trans ?_ (ih _)
    split <;> omega

/-- The running maximum of `NewEProbs` is at least every scanned residue. -/
theorem le_foldlMax_mem (l : List Nat) (i a : Nat) (ha : a ∈ l) :
    a ≤ l.foldl (fun m r => if r > m then r else m) i := by
  induction l generalizing i with
  | nil => cases ha
  | cons b l ih =>
    simp only [List.foldl_cons]
    rcases List.mem_cons.mp ha with hb | hl
    · subst hb
      refine Nat.le_trans ?_ (init_le_foldlMax _ _)
      split <;> omega
    · exact ih _ hl

/-- The running maximum of `NewEProbs` stays below any common bound. -/
theorem foldlMax_le (l : List Nat) (i c : Nat) (hi : i ≤ c)
    (hl : ∀ a ∈ l, a ≤ c) :
    l.foldl (fun m r => if r > m then r else m) i ≤ c := by
  induction l generalizing i with
  | nil => exact hi
  | cons b l ih =>
    simp only [List.foldl_cons]
    refine ih _ ?_ (fun a ha => hl a (List.mem_cons_of_mem _ ha))
    have hb : b ≤ c := hl b (List.mem_cons_self _ _)
    split <;> omega

/-- C7: a lookup at a residue outside the byte span
`[Offset, Offset + len Probs - 1]` of a table dimensioned by
`NewEProbs` over a non-empty alphabet of bytes returns `MinProb`,
whatever values the table currently stores — the wrapped unsigned
subtraction `r - Offset` always lands at or beyond the end of the
vector. -/
theorem EProbs.Lookup_out_of_span (alpha : List Nat) (hne : alpha ≠ [])
    (hb : ∀ a ∈ alpha, a ≤ 255) (ps : List Prob)
    (hlen : ps.length = (NewEProbs alpha).Probs.length) (r : Nat) (hr : r ≤ 255)
    (hout : r < (NewEProbs alpha).Offset ∨ (NewEProbs alpha).Offset + ps.length ≤ r) :
    EProbs.Lookup { Offset := (NewEProbs alpha).Offset, Probs := ps } r = MinProb := by
  obtain ⟨a, ha⟩ := List.exists_mem_of_ne_nil alpha hne
  have hoffa : (NewEProbs alpha).Offset ≤ a := foldlMin_le_mem alpha 255 a ha
  have hoff255 : (NewEProbs alpha).Offset ≤ 255 := foldlMin_le_init alpha 255
  have hamx : a ≤ alpha.foldl (fun m r => if r > m then r else m) 0 :=
    le_foldlMax_mem alpha 0 a ha
  have hmx255 : alpha.foldl (fun m r => if r > m then r else m) 0 ≤ 255 :=
    foldlMax_le alpha 0 255 (by omega) hb
  have hlen' : ps.length =
      (1 + alpha.foldl (fun m r => if r > m then r else m) 0 + 256 -
        (NewEProbs alpha).Offset) % 256 := by
    simpa [NewEProbs] using hlen
  have hmiss : ¬ (r + 256 - (NewEProbs alpha).Offset) % 256 < ps.length := by omega
  simp only [EProbs.Lookup]
  rw [dif_neg hmiss]

/-- Witness for C7: alphabet `{X}` (byte 88), residue 87 just below the
span, on the freshly built table. -/
theorem EProbs.Lookup_out_of_span_witness :
    (([88] : List Nat) ≠ [] ∧ (∀ a ∈ ([88] : List Nat), a ≤ 255) ∧
      (NewEProbs [88]).Probs.length = (NewEProbs [88]).Probs.length ∧
      (87 : Nat) ≤ 255 ∧ 87 < (NewEProbs [88]).Offset) ∧
    EProbs.Lookup { Offset := (NewEProbs [88]).Offset, Probs := (NewEProbs [88]).Probs } 87 =
      MinProb :=
  ⟨⟨by decide, by decide, rfl, by decide, by decide⟩,
    EProbs.Lookup_out_of_span [88] (by decide) (by decide) (NewEProbs [88]).Probs rfl 87
      (by decide) (Or.inl (by decide))⟩

/-! ### Probability text round-trip -/

/-- C6: probability text round-trip.  `NewProb "*"` is `MinProb` with
no error and `MinProb` prints as `"*"`; every other value whose
(abstracted) standard-library float formatting is not `"*"` and is
re-parsed to itself by the standard-library float parser round-trips
through `NewProb ∘ toText`; and a string that is neither `"*"` nor
parsable yields an error naming the string. -/
theorem NewProb_toText_round_trip (parseFloat : String → Option Prob)
    (formatFloat : Prob → String) :
    NewProb parseFloat "*" = Except.ok MinProb ∧
    Prob.toText formatFloat MinProb = "*" ∧
    (∀ p : Prob, p ≠ MinProb → formatFloat p ≠ "*" →
      parseFloat (formatFloat p) = some p →
      NewProb parseFloat (Prob.toText formatFloat p) = Except.ok p) ∧
    (∀ s : String, s ≠ "*" → parseFloat s = none →
      NewProb parseFloat s =
        Except.error ("Could not convert " ++ s ++ " to a log probability")) := by
  refine ⟨?_, ?_, ?_, ?_⟩
  · rw [NewProb, if_pos rfl]
  · rw [Prob.toText, if_pos]
    rfl
  · intro p hp hne hparse
    have hp' : ¬ p.IsMin := hp
    rw [Prob.toText, if_neg hp']
    rw [NewProb, if_neg hne, hparse]
  · intro s hs hparse
    rw [NewProb, if_neg hs, hparse]

/-- A concrete stand-in for the abstracted float formatter, used only
by the round-trip witness. -/
def formatFloatW : Prob → String := fun _ => "3"

/-- A concrete stand-in for the abstracted float parser, inverting
`formatFloatW` on the one value the witness exercises. -/
def parseFloatW : String → Option Prob := fun s => if s = "3" then some 3 else none

/-- Witness for C6 at the concrete parser/formatter pair and `p = 3`,
`s = "x"`. -/
theorem NewProb_toText_round_trip_witness :
    ((3 : Prob) ≠ MinProb ∧ formatFloatW 3 ≠ "*" ∧
      parseFloatW (formatFloatW 3) = some 3 ∧ ("x" : String) ≠ "*" ∧
      parseFloatW "x" = none) ∧
    NewProb parseFloatW "*" = Except.ok MinProb ∧
    Prob.toText formatFloatW MinProb = "*" ∧
    NewProb parseFloatW (Prob.toText formatFloatW 3) = Except.ok 3 ∧
    NewProb parseFloatW "x" =
      Except.error ("Could not convert " ++ "x" ++ " to a log probability") :=
  ⟨⟨by decide, by decide, by decide, by decide, by decide⟩,
    (NewProb_toText_round_trip parseFloatW formatFloatW).1,
    (NewProb_toText_round_trip parseFloatW formatFloatW).2.1,
    (NewProb_toText_round_trip parseFloatW formatFloatW).2.2.1 3 (by decide) (by decide)
      (by decide),
    (NewProb_toText_round_trip parseFloatW formatFloatW).2.2.2 "x" (by decide) (by decide)⟩

/-! ### Viterbi: reusable table against engine-allocated table -/

/-- C2: `ViterbiScoreMem` on any caller-provided table of the
dimensions produced by `AllocTable(len(hmm.Nodes), seq.Len())` returns
the same score as `ViterbiScore`, regardless of the table's prior
score contents — the table is reset before computing. -/
theorem HMM.ViterbiScoreMem_eq_ViterbiScore (hmm : HMM) (seq : Sequence) (ps : List Prob)
    (hlen : ps.length = 3 * (hmm.Nodes.length + 1) * (seq.Len + 1)) :
    hmm.ViterbiScoreMem seq { scores := ps, nodes := hmm.Nodes.length + 1 } =
      hmm.ViterbiScore seq := by
  have hreset : (⟨ps, hmm.Nodes.length + 1⟩ : DynamicTable).reset =
      (AllocTable hmm.Nodes.length seq.Len).reset := by
    simp [DynamicTable.reset, AllocTable, hlen]
  rw [HMM.ViterbiScore]
  unfold HMM.ViterbiScoreMem
  rw [hreset]

/-- Witness for C2: a 27-slot table prefilled with the score 7 on the
scenario-C model and sequence. -/
theorem HMM.ViterbiScoreMem_eq_ViterbiScore_witness :
    (List.replicate 27 (7 : Prob)).length =
        3 * (hmmC9.Nodes.length + 1) * (seqXX.Len + 1) ∧
      hmmC9.ViterbiScoreMem seqXX
          { scores := List.replicate 27 (7 : Prob), nodes := hmmC9.Nodes.length + 1 } =
        hmmC9.ViterbiScore seqXX :=
  ⟨by rfl, HMM.ViterbiScoreMem_eq_ViterbiScore hmmC9 seqXX _ (by rfl)⟩

section ScenarioC

attribute [local semireducible] Rat.add
set_option maxRecDepth 8000

/-- C9: scoring `"XX"` against the scenario-C model yields exactly 0. -/
theorem viterbiScore_scenarioC : hmmC9.ViterbiScore seqXX = 0 := by decide

end ScenarioC

/-! ### Needleman-Wunsch: safety, degapping and symmetry -/

/-- The function `max3` always returns one of its arguments. -/
theorem max3_or (a b c : Int) : max3 a b c = a ∨ max3 a b c = b ∨ max3 a b c = c := by
  unfold max3
  split_ifs <;> tauto

/-- The function `max3` is invariant under swapping its last two arguments (it is
the maximum of the three values). -/
theorem max3_swap (a b c : Int) : max3 a b c = max3 a c b := by
  unfold max3
  split_ifs <;> omega

/-- Removing every gap symbol from a sequence, used to state C4. -/
def removeGaps (l : List Nat) : List Nat := l.filter (fun r => decide (r ≠ gapResidue))

theorem removeGaps_cons_congr (x : Nat) {l1 l2 : List Nat}
    (h : removeGaps l1 = removeGaps l2) :
    removeGaps (x :: l1) = removeGaps (x :: l2) := by
  simp only [removeGaps, List.filter_cons] at *
  split
  · rw [h]
  · exact h

theorem removeGaps_gap_cons (l : List Nat) :
    removeGaps (gapResidue :: l) = removeGaps l := by
  simp [removeGaps]

theorem removeGaps_reverse (l : List Nat) :
    removeGaps l.reverse = (removeGaps l).reverse := by
  induction l with
  | nil => rfl
  | cons a l ih =>
    simp only [removeGaps, List.reverse_cons, List.filter_append, List.filter_cons,
      List.filter_nil] at *
    split <;> simp [ih]

theorem removeGaps_eq_self {l : List Nat} (h : ∀ r ∈ l, r ≠ gapResidue) :
    removeGaps l = l :=
  List.filter_eq_self.mpr fun a ha => decide_eq_true (h a ha)

/-- Peeling the last element off a reversed prefix. -/
theorem take_reverse_succ (l : List Nat) (a : Nat) (h : a < l.length) :
    (l.take (a + 1)).reverse = l.getD a 0 :: (l.take a).reverse := by
  rw [List.take_succ]
  have hg : l[a]? = some (l.get ⟨a, h⟩) := by
    rw [List.getElem?_eq_getElem h]
    rfl
  rw [List.getD_eq_getElem l 0 h]
  simp [hg]

/-- A concrete symmetric substitution function: +1 on a match, −5 on a
mismatch, and gap self-score (the uniform gap penalty) −1. -/
def substC : MatLookup := fun x y =>
  if x = y then (if x = gapResidue then -1 else 1) else -5

/-- The function `substC` is symmetric. -/
theorem substC_symm : ∀ x y, substC x y = substC y x := by
  intro x y
  unfold substC
  rcases eq_or_ne x y with h | h
  · rw [h]
  · rw [if_neg h, if_neg (fun hyx => h hyx.symm)]

/-- The structural invariant of the Go traceback loop: entered at
`(i, j)` within the matrix with enough fuel, it reaches `(0, 0)` without
taking the `panic` branch, produces rows of equal length, and its
reversed rows degap to the consumed prefixes of `A` and `B`. -/
theorem nwTraceRevGo_struct (A B : List Nat) (subst : MatLookup) :
    ∀ (fuel i j : Nat), i + j ≤ fuel → i ≤ A.length → j ≤ B.length →
      ∃ ra rb, nwTraceRevGo A B subst fuel i j = some (ra, rb) ∧
        ra.length = rb.length ∧
        removeGaps ra = removeGaps ((A.take i).reverse) ∧
        removeGaps rb = removeGaps ((B.take j).reverse) := by
  intro fuel
  induction fuel with
  | zero =>
    intro i j hf _ _
    obtain ⟨rfl, rfl⟩ : i = 0 ∧ j = 0 := by omega
    exact ⟨[], [], rfl, rfl, rfl, rfl⟩
  | succ fuel ih =>
    intro i j hf hi hj
    match i, j with
    | 0, 0 => exact ⟨[], [], rfl, rfl, rfl, rfl⟩
    | a + 1, 0 =>
      have hc1 : ¬ (0 < a + 1 ∧ 0 < 0 ∧
          nwMatrix A B subst (a + 1) 0 =
            nwMatrix A B subst (a + 1 - 1) (0 - 1) +
              subst (A.getD (a + 1 - 1) 0) (B.getD (0 - 1) 0)) :=
        fun h => absurd h.2.1 (lt_irrefl 0)
      have hc2 : 0 < a + 1 ∧
          nwMatrix A B subst (a + 1) 0 = nwMatrix A B subst (a + 1 - 1) 0 +
            subst gapResidue gapResidue := by
        refine ⟨Nat.succ_pos a, ?_⟩
        rw [Nat.add_sub_cancel, nwMatrix_zero_right, nwMatrix_zero_right]
        push_cast
        ring
      obtain ⟨ra, rb, hsome, hlen, hra, hrb⟩ := ih a 0 (by omega) (by omega) hj
      refine ⟨A.getD a 0 :: ra, gapResidue :: rb, ?_, by simp [hlen], ?_, ?_⟩
      · simp only [nwTraceRevGo]
        rw [if_neg hc1, if_pos hc2, Nat.add_sub_cancel, hsome]
      · rw [take_reverse_succ A a (by omega)]
        exact removeGaps_cons_congr _ hra
      · rw [removeGaps_gap_cons]
        exact hrb
    | 0, b + 1 =>
      have hc1 : ¬ (0 < 0 ∧ 0 < b + 1 ∧
          nwMatrix A B subst 0 (b + 1) =
            nwMatrix A B subst (0 - 1) (b + 1 - 1) +
              subst (A.getD (0 - 1) 0) (B.getD (b + 1 - 1) 0)) :=
        fun h => absurd h.1 (lt_irrefl 0)
      have hc2 : ¬ (0 < 0 ∧
          nwMatrix A B subst 0 (b + 1) = nwMatrix A B subst (0 - 1) (b + 1) +
            subst gapResidue gapResidue) :=
        fun h => absurd h.1 (lt_irrefl 0)
      have hc3 : 0 < b + 1 ∧
          nwMatrix A B subst 0 (b + 1) = nwMatrix A B subst 0 (b + 1 - 1) +
            subst gapResidue gapResidue := by
        refine ⟨Nat.succ_pos b, ?_⟩
        rw [Nat.add_sub_cancel, nwMatrix_zero_left, nwMatrix_zero_left]
        push_cast
        ring
      obtain ⟨ra, rb, hsome, hlen, hra, hrb⟩ := ih 0 b (by omega) hi (by omega)
      refine ⟨gapResidue :: ra, B.getD b 0 :: rb, ?_, by simp [hlen], ?_, ?_⟩
      · simp only [nwTraceRevGo]
        rw [if_neg hc1, if_neg hc2, if_pos hc3, Nat.add_sub_cancel, hsome]
      · rw [removeGaps_gap_cons]
        exact hra
      · rw [take_reverse_succ B b (by omega)]
        exact removeGaps_cons_congr _ hrb
    | a + 1, b + 1 =>
      by_cases hc1 : 0 < a + 1 ∧ 0 < b + 1 ∧
          nwMatrix A B subst (a + 1) (b + 1) =
            nwMatrix A B subst (a + 1 - 1) (b + 1 - 1) +
              subst (A.getD (a + 1 - 1) 0) (B.getD (b + 1 - 1) 0)
      · obtain ⟨ra, rb, hsome, hlen, hra, hrb⟩ := ih a b (by omega) (by omega) (by omega)
        refine ⟨A.getD a 0 :: ra, B.getD b 0 :: rb, ?_, by simp [hlen], ?_, ?_⟩
        · simp only [nwTraceRevGo]
          rw [if_pos hc1, Nat.add_sub_cancel, Nat.add_sub_cancel, hsome]
        · rw [take_reverse_succ A a (by omega)]
          exact removeGaps_cons_congr _ hra
        · rw [take_reverse_succ B b (by omega)]
          exact removeGaps_cons_congr _ hrb
      · by_cases hc2 : 0 < a + 1 ∧
            nwMatrix A B subst (a + 1) (b + 1) = nwMatrix A B subst (a + 1 - 1) (b + 1) +
              subst gapResidue gapResidue
        · obtain ⟨ra, rb, hsome, hlen, hra, hrb⟩ := ih a (b + 1) (by omega) (by omega) hj
          refine ⟨A.getD a 0 :: ra, gapResidue :: rb, ?_, by simp [hlen], ?_, ?_⟩
          · simp only [nwTraceRevGo]
            rw [if_neg hc1, if_pos hc2, Nat.add_sub_cancel, hsome]
          · rw [take_reverse_succ A a (by omega)]
            exact removeGaps_cons_congr _ hra
          · rw [removeGaps_gap_cons]
            exact hrb
        · by_cases hc3 : 0 < b + 1 ∧
              nwMatrix A B subst (a + 1) (b + 1) = nwMatrix A B subst (a + 1) (b + 1 - 1) +
                subst gapResidue gapResidue
          · obtain ⟨ra, rb, hsome, hlen, hra, hrb⟩ := ih (a + 1) b (by omega) hi (by omega)
            refine ⟨gapResidue :: ra, B.getD b 0 :: rb, ?_, by simp [hlen], ?_, ?_⟩
            · simp only [nwTraceRevGo]
              rw [if_neg hc1, if_neg hc2, if_pos hc3, Nat.add_sub_cancel, hsome]
            · rw [removeGaps_gap_cons]
              exact hra
            · rw [take_reverse_succ B b (by omega)]
              exact removeGaps_cons_congr _ hrb
          · exfalso
            rcases max3_or (nwMatrix A B subst a b + subst (A.getD a 0) (B.getD b 0))
                (nwMatrix A B subst a (b + 1) + subst gapResidue gapResidue)
                (nwMatrix A B subst (a + 1) b + subst gapResidue gapResidue) with hd | hu | hl
            · exact hc1 ⟨Nat.succ_pos a, Nat.succ_pos b, by
                rw [Nat.add_sub_cancel, Nat.add_sub_cancel, nwMatrix_succ, hd]⟩
            · exact hc2 ⟨Nat.succ_pos a, by
                rw [Nat.add_sub_cancel, nwMatrix_succ, hu]⟩
            · exact hc3 ⟨Nat.succ_pos b, by
                rw [Nat.add_sub_cancel, nwMatrix_succ, hl]⟩

/-- C3: the traceback of `NeedlemanWunsch` never reaches a cell where
none of the three predecessor conditions holds: the `panic` branch
(modelled `none`) is unreachable for every pair of sequences and every
substitution function, given the matrix built by the `max3`
recurrence. -/
theorem NeedlemanWunsch_no_panic (A B : List Nat) (subst : MatLookup) :
    (NeedlemanWunsch A B subst).isSome = true := by
  obtain ⟨ra, rb, hsome, -, -, -⟩ :=
    nwTraceRevGo_struct A B subst (A.length + B.length) A.length B.length
      (le_refl _) (le_refl _) (le_refl _)
  simp [NeedlemanWunsch, nwTraceRev, hsome]

/-- C4: on gap-free inputs, `NeedlemanWunsch` returns an alignment of
two equal-length rows, and removing every gap from the reference row
gives back `A`, from the query row gives back `B`. -/
theorem NeedlemanWunsch_degap (A B : List Nat) (subst : MatLookup)
    (hA : ∀ r ∈ A, r ≠ gapResidue) (hB : ∀ r ∈ B, r ≠ gapResidue) :
    ∃ al : Alignment, NeedlemanWunsch A B subst = some al ∧
      al.A.length = al.B.length ∧ removeGaps al.A = A ∧ removeGaps al.B = B := by
  obtain ⟨ra, rb, hsome, hlen, hra, hrb⟩ :=
    nwTraceRevGo_struct A B subst (A.length + B.length) A.length B.length
      (le_refl _) (le_refl _) (le_refl _)
  refine ⟨{ A := ra.reverse, B := rb.reverse }, ?_, by simp [hlen], ?_, ?_⟩
  · simp [NeedlemanWunsch, nwTraceRev, hsome]
  · rw [removeGaps_reverse, hra, List.take_length, removeGaps_reverse,
      List.reverse_reverse, removeGaps_eq_self hA]
  · rw [removeGaps_reverse, hrb, List.take_length, removeGaps_reverse,
      List.reverse_reverse, removeGaps_eq_self hB]

/-- C5 counterexample: for the symmetric substitution function `substC`
(match +1, mismatch −5, gap penalty −1), aligning `[1]` with `[2]` and
`[2]` with `[1]` does NOT give transposed alignments: the mismatch is
worse than two gaps, the vertical and horizontal branches tie, and each
run resolves the tie towards its own first sequence, so the reference
of one differs from the query of the other. -/
theorem NeedlemanWunsch_transpose_counterexample :
    (∀ x y, substC x y = substC y x) ∧
    ∃ al1 al2 : Alignment, NeedlemanWunsch [1] [2] substC = some al1 ∧
      NeedlemanWunsch [2] [1] substC = some al2 ∧ al2.A ≠ al1.B :=
  ⟨substC_symm,
    { A := [gapResidue, 1], B := [2, gapResidue] },
    { A := [gapResidue, 2], B := [1, gapResidue] },
    by decide, by decide, by decide⟩

/-- C5 amended: for a symmetric substitution function the
Needleman-Wunsch score matrices of `(A, B)` and `(B, A)` are transposes
of one another (hence equal optimal scores); the returned alignments
themselves need not be transposes when the vertical-gap and
horizontal-gap traceback branches tie, because the fixed priority order
(diagonal, vertical, horizontal) is not self-transpose. -/
theorem nwMatrix_transpose (A B : List Nat) (subst : MatLookup)
    (hsym : ∀ x y, subst x y = subst y x) :
    ∀ i j, nwMatrix A B subst i j = nwMatrix B A subst j i := by
  have key : ∀ n i j, i + j ≤ n → nwMatrix A B subst i j = nwMatrix B A subst j i := by
    intro n
    induction n with
    | zero =>
      intro i j h
      obtain ⟨rfl, rfl⟩ : i = 0 ∧ j = 0 := by omega
      rfl
    | succ n ih =>
      intro i j h
      match i, j with
      | 0, j => rw [nwMatrix_zero_left, nwMatrix_zero_right]
      | i + 1, 0 => rw [nwMatrix_zero_right, nwMatrix_zero_left]
      | a + 1, b + 1 =>
        rw [nwMatrix_succ, nwMatrix_succ]
        rw [ih a b (by omega), ih a (b + 1) (by omega), ih (a + 1) b (by omega),
          hsym (A.getD a 0) (B.getD b 0)]
        exact max3_swap _ _ _
  exact fun i j => key (i + j) i j (le_refl _)

/-- Witness for the amended C5 at `substC`, `A = [1]`, `B = [2]`,
`i = j = 1`. -/
theorem nwMatrix_transpose_witness :
    nwMatrix [1] [2] substC 1 1 = nwMatrix [2] [1] substC 1 1 :=
  nwMatrix_transpose [1] [2] substC substC_symm 1 1

/-- Witness for C4 on the gap-free inputs `[1, 2]` and `[2]`. -/
theorem NeedlemanWunsch_degap_witness :
    ((∀ r ∈ ([1, 2] : List Nat), r ≠ gapResidue) ∧
      (∀ r ∈ ([2] : List Nat), r ≠ gapResidue)) ∧
    ∃ al : Alignment, NeedlemanWunsch [1, 2] [2] substC = some al ∧
      al.A.length = al.B.length ∧ removeGaps al.A = [1, 2] ∧ removeGaps al.B = [2] :=
  ⟨⟨by decide, by decide⟩,
    NeedlemanWunsch_degap [1, 2] [2] substC (by decide) (by decide)⟩

/-! ### The reference dynamic program of spec §4.3, and C1 -/

/-- The reference table of spec §4.3, addressed by
`(state, node, observation)`.  (The code's table is a flat buffer; the
refinement theorem `viterbiScore_eq_specViterbiScore` connects the
two.) -/
abbrev SpecTable := HMMState → Nat → Nat → Prob

/-- Spec §4.3 boundary: `cell(Match, 0, 0) = 0`, every other cell the
sentinel. -/
def specInit : SpecTable := fun s n o =>
  if s = HMMState.Match ∧ n = 0 ∧ o = 0 then 0 else MinProb

/-- One "propose" of spec §4.3: the target cell keeps the numerically
smaller value; ties keep the value already present. -/
def specPropose (f : SpecTable) (s : HMMState) (n o : Nat) (p : Prob) : SpecTable :=
  fun s' n' o' =>
    if s' = s ∧ n' = n ∧ o' = o then (if p < f s n o then p else f s n o) else f s' n' o'

/-- The seven propose-updates of the spec §4.3 recurrence for one
`(node, observation)` pair, with `iemit`/`memit` as the spec defines
them (the synthetic end node forces `memit = 0`). -/
def specStep (hmm : HMM) (seq : Sequence) (node : Nat) (f : SpecTable) (obs : Nat) :
    SpecTable :=
  let trans := (hmm.Nodes.getD node default).Transitions
  let residue := seq.Residues.getD obs 0
  let iemit := (hmm.Nodes.getD node default).InsEmit.Lookup residue
  let memit : Prob :=
    if node + 1 < hmm.Nodes.length then
      (hmm.Nodes.getD (node + 1) default).MatEmit.Lookup residue
    else 0
  let here := f .Match node obs
  let f := specPropose f .Insertion node (obs + 1) (here + trans.MI + iemit)
  let f := specPropose f .Match (node + 1) (obs + 1) (here + trans.MM + memit)
  let f := specPropose f .Deletion (node + 1) obs (here + trans.MD)
  let here := f .Insertion node obs
  let f := specPropose f .Insertion node (obs + 1) (here + trans.II + iemit)
  let f := specPropose f .Match (node + 1) (obs + 1) (here + trans.IM + memit)
  let here := f .Deletion node obs
  let f := specPropose f .Match (node + 1) (obs + 1) (here + trans.DM + memit)
  specPropose f .Deletion (node + 1) obs (here + trans.DD)

/-- The reference dynamic program of spec §4.3: initialize, apply the
recurrence for each node and observation in order, read
`cell(Match, nodeCount, seqLen)`. -/
def specViterbiScore (hmm : HMM) (seq : Sequence) : Prob :=
  let final := (List.range hmm.Nodes.length).foldl
    (fun f node => (List.range seq.Len).foldl (specStep hmm seq node) f) specInit
  final .Match hmm.Nodes.length seq.Len

/-- The simulation relation between the code's flat table and the
spec's three-dimensional table: dimensions agree and every in-range
cell holds the same score. -/
def TblRel (N L : Nat) (t : DynamicTable) (f : SpecTable) : Prop :=
  t.nodes = N ∧ t.scores.length = 3 * N * (L + 1) ∧
  ∀ (s : HMMState) (n o : Nat), s.toNat < 3 → n < N → o < L + 1 →
    t.getP (t.index s n o) = f s n o

/-- The map `HMMState.toNat` is injective. -/
theorem HMMState.toNat_inj {s s' : HMMState} (h : s.toNat = s'.toNat) : s = s' := by
  cases s <;> cases s' <;> simp_all [HMMState.toNat]

/-- In-range flat indices stay below the table size. -/
theorem index_lt_size (t : DynamicTable) (N L : Nat) (hN : t.nodes = N)
    (s : HMMState) (n o : Nat) (hs : s.toNat < 3) (hn : n < N) (ho : o < L + 1) :
    t.index s n o < 3 * N * (L + 1) := by
  unfold DynamicTable.index
  rw [hN]
  have h1 : N * o ≤ N * L := Nat.mul_le_mul_left N (by omega)
  nlinarith

/-- The flat index map is injective on in-range coordinates. -/
theorem index_inj (t : DynamicTable) (N : Nat) (hN : t.nodes = N)
    {s s' : HMMState} {n n' o o' : Nat} (hs : s.toNat < 3) (hs' : s'.toNat < 3)
    (hn : n < N) (hn' : n' < N)
    (h : t.index s n o = t.index s' n' o') : s = s' ∧ n = n' ∧ o = o' := by
  unfold DynamicTable.index at h
  rw [hN] at h
  have h3 : (s.toNat + 3 * (n + N * o)) % 3 = (s'.toNat + 3 * (n' + N * o')) % 3 := by
    rw [h]
  rw [Nat.add_mul_mod_self_left, Nat.add_mul_mod_self_left,
    Nat.mod_eq_of_lt hs, Nat.mod_eq_of_lt hs'] at h3
  have hss : s = s' := HMMState.toNat_inj h3
  have h4 : n + N * o = n' + N * o' := by omega
  have h5 : (n + N * o) % N = (n' + N * o') % N := by rw [h4]
  rw [Nat.add_mul_mod_self_left, Nat.add_mul_mod_self_left,
    Nat.mod_eq_of_lt hn, Nat.mod_eq_of_lt hn'] at h5
  have h6 : N * o = N * o' := by omega
  exact ⟨hss, h5, Nat.eq_of_mul_eq_mul_left (by omega) h6⟩

/-- Reading an in-range cell through the relation. -/
theorem TblRel.getP_eq {N L : Nat} {t : DynamicTable} {f : SpecTable}
    (rel : TblRel N L t f) (s : HMMState) (n o : Nat)
    (hs : s.toNat < 3) (hn : n < N) (ho : o < L + 1) :
    t.getP (t.index s n o) = f s n o :=
  rel.2.2 s n o hs hn ho

/-- A conditional store in the flat table corresponds to a spec
"propose" at the same cell with the same value. -/
theorem TblRel.set_propose {N L : Nat} {t : DynamicTable} {f : SpecTable}
    (rel : TblRel N L t f) (s : HMMState) (n o : Nat) {p q : Prob} (hpq : p = q)
    (hs : s.toNat < 3) (hn : n < N) (ho : o < L + 1) :
    TblRel N L (t.set s n o p) (specPropose f s n o q) := by
  cases hpq
  obtain ⟨hnodes, hlen, hpt⟩ := rel
  have hval : t.getP (t.index s n o) = f s n o := hpt s n o hs hn ho
  have hidx : t.index s n o < t.scores.length := by
    rw [hlen]
    exact index_lt_size t N L hnodes s n o hs hn ho
  unfold DynamicTable.set
  by_cases hcmp : (t.getP (t.index s n o)).Less p
  · rw [if_pos hcmp]
    have hplt : p < f s n o := by rw [← hval]; exact hcmp
    refine ⟨hnodes, by simpa using hlen, ?_⟩
    intro s' n' o' hs' hn' ho'
    have hidx' : ({ t with scores := t.scores.set (t.index s n o) p } :
        DynamicTable).index s' n' o' = t.index s' n' o' := rfl
    by_cases heq : s' = s ∧ n' = n ∧ o' = o
    · obtain ⟨rfl, rfl, rfl⟩ := heq
      rw [hidx']
      show (t.scores.set (t.index s' n' o') p).getD (t.index s' n' o') MinProb = _
      rw [List.getD_eq_getElem _ MinProb (by simpa using hidx), List.getElem_set_self]
      rw [specPropose, if_pos ⟨rfl, rfl, rfl⟩, if_pos hplt]
    · have hne : t.index s' n' o' ≠ t.index s n o := fun hc =>
        heq (index_inj t N hnodes hs' hs hn' hn hc)
      rw [hidx']
      show (t.scores.set (t.index s n o) p).getD (t.index s' n' o') MinProb = _
      rw [List.getD_eq_getD_get?, List.get?_set_ne _ _ (Ne.symm hne),
        ← List.getD_eq_getD_get?]
      rw [specPropose, if_neg heq]
      exact hpt s' n' o' hs' hn' ho'
  · rw [if_neg hcmp]
    refine ⟨hnodes, hlen, ?_⟩
    intro s' n' o' hs' hn' ho'
    by_cases heq : s' = s ∧ n' = n ∧ o' = o
    · obtain ⟨rfl, rfl, rfl⟩ := heq
      have hnlt : ¬ p < f s' n' o' := by rw [← hval]; exact hcmp
      rw [specPropose, if_pos ⟨rfl, rfl, rfl⟩, if_neg hnlt]
      exact hval
    · rw [specPropose, if_neg heq]
      exact hpt s' n' o' hs' hn' ho'

/-- The seven conditional stores of one `(node, obs)` iteration of the
code correspond to the seven proposes of the spec recurrence, for any
transition record and emission scores. -/
theorem TblRel.sevenUpdates {N L : Nat} {t : DynamicTable} {f : SpecTable}
    (rel : TblRel N L t f) (node obs : Nat) (tr : TProbs) (ie me : Prob)
    (hn : node + 1 < N) (ho : obs + 1 < L + 1) :
    TblRel N L
      (let here := t.getP (t.index .Match node obs)
       let t := t.set .Insertion node (obs + 1) (here + tr.MI + ie)
       let t := t.set .Match (node + 1) (obs + 1) (here + tr.MM + me)
       let t := t.set .Deletion (node + 1) obs (here + tr.MD)
       let here := t.getP (t.index .Insertion node obs)
       let t := t.set .Insertion node (obs + 1) (here + tr.II + ie)
       let t := t.set .Match (node + 1) (obs + 1) (here + tr.IM + me)
       let here := t.getP (t.index .Deletion node obs)
       let t := t.set .Match (node + 1) (obs + 1) (here + tr.DM + me)
       t.set .Deletion (node + 1) obs (here + tr.DD))
      (let here := f .Match node obs
       let f := specPropose f .Insertion node (obs + 1) (here + tr.MI + ie)
       let f := specPropose f .Match (node + 1) (obs + 1) (here + tr.MM + me)
       let f := specPropose f .Deletion (node + 1) obs (here + tr.MD)
       let here := f .Insertion node obs
       let f := specPropose f .Insertion node (obs + 1) (here + tr.II + ie)
       let f := specPropose f .Match (node + 1) (obs + 1) (here + tr.IM + me)
       let here := f .Deletion node obs
       let f := specPropose f .Match (node + 1) (obs + 1) (here + tr.DM + me)
       specPropose f .Deletion (node + 1) obs (here + tr.DD)) := by
  have h1 := rel.getP_eq HMMState.Match node obs (by decide) (by omega) (by omega)
  have relA := rel.set_propose HMMState.Insertion node (obs + 1)
    (congrArg (fun x => x + tr.MI + ie) h1) (by decide) (by omega) (by omega)
  have relB := relA.set_propose HMMState.Match (node + 1) (obs + 1)
    (congrArg (fun x => x + tr.MM + me) h1) (by decide) (by omega) (by omega)
  have relC := relB.set_propose HMMState.Deletion (node + 1) obs
    (congrArg (fun x => x + tr.MD) h1) (by decide) (by omega) (by omega)
  have h2 := relC.getP_eq HMMState.Insertion node obs (by decide) (by omega) (by omega)
  have relD := relC.set_propose HMMState.Insertion node (obs + 1)
    (congrArg (fun x => x + tr.II + ie) h2) (by decide) (by omega) (by omega)
  have relE := relD.set_propose HMMState.Match (node + 1) (obs + 1)
    (congrArg (fun x => x + tr.IM + me) h2) (by decide) (by omega) (by omega)
  have h3 := relE.getP_eq HMMState.Deletion node obs (by decide) (by omega) (by omega)
  have relF := relE.set_propose HMMState.Match (node + 1) (obs + 1)
    (congrArg (fun x => x + tr.DM + me) h3) (by decide) (by omega) (by omega)
  exact relF.set_propose HMMState.Deletion (node + 1) obs
    (congrArg (fun x => x + tr.DD) h3) (by decide) (by omega) (by omega)

/-- One iteration of the code's inner loop preserves the simulation
against one application of the spec recurrence. -/
theorem TblRel.viterbiStep_rel {N L : Nat} {t : DynamicTable} {f : SpecTable}
    (rel : TblRel N L t f) (hmm : HMM) (seq : Sequence)
    (hN : N = hmm.Nodes.length + 1) (hL : L = seq.Len)
    {node obs : Nat} (hnode : node < hmm.Nodes.length) (hobs : obs < seq.Len) :
    TblRel N L (viterbiStep hmm seq node t obs) (specStep hmm seq node f obs) := by
  have h := rel.sevenUpdates node obs (hmm.Nodes.getD node default).Transitions
    ((hmm.Nodes.getD node default).InsEmit.Lookup (seq.Residues.getD obs 0))
    (if node + 1 < hmm.Nodes.length then
       (hmm.Nodes.getD (node + 1) default).MatEmit.Lookup (seq.Residues.getD obs 0)
     else 0)
    (by omega) (by omega)
  exact h

/-- A fold preserves the simulation when every step does. -/
theorem TblRel.foldl_rel {N L : Nat} (g : DynamicTable → Nat → DynamicTable)
    (g' : SpecTable → Nat → SpecTable) (l : List Nat)
    (H : ∀ {t f} (x : Nat), x ∈ l → TblRel N L t f → TblRel N L (g t x) (g' f x)) :
    ∀ {t f}, TblRel N L t f → TblRel N L (l.foldl g t) (l.foldl g' f) := by
  induction l with
  | nil => intro t f rel; exact rel
  | cons a l ih =>
    intro t f rel
    simp only [List.foldl_cons]
    exact ih (fun x hx r => H x (List.mem_cons_of_mem _ hx) r)
      (H a (List.mem_cons_self _ _) rel)

/-- The engine's starting table: freshly allocated, reset, and seeded
with `cell(Match, 0, 0) = 0` (the begin node). -/
def seededTable (hmm : HMM) (seq : Sequence) : DynamicTable :=
  { scores := ((AllocTable hmm.Nodes.length seq.Len).reset).scores.set
      (((AllocTable hmm.Nodes.length seq.Len).reset).index .Match 0 0) 0,
    nodes := ((AllocTable hmm.Nodes.length seq.Len).reset).nodes }

/-- The freshly reset and seeded table is related to the spec's
initialized table. -/
theorem TblRel.init (hmm : HMM) (seq : Sequence) :
    TblRel (hmm.Nodes.length + 1) seq.Len (seededTable hmm seq) specInit := by
  have hlen0 : ((AllocTable hmm.Nodes.length seq.Len).reset).scores.length =
      3 * (hmm.Nodes.length + 1) * (seq.Len + 1) := by
    simp [AllocTable, DynamicTable.reset]
  have hscores : ((AllocTable hmm.Nodes.length seq.Len).reset).scores =
      List.replicate (3 * (hmm.Nodes.length + 1) * (seq.Len + 1)) MinProb := by
    simp [AllocTable, DynamicTable.reset]
  have hnodes0 : ((AllocTable hmm.Nodes.length seq.Len).reset).nodes =
      hmm.Nodes.length + 1 := by
    simp [AllocTable, DynamicTable.reset]
  have hidxlt : ∀ (s' : HMMState) (n' o' : Nat), s'.toNat < 3 →
      n' < hmm.Nodes.length + 1 → o' < seq.Len + 1 →
      ((AllocTable hmm.Nodes.length seq.Len).reset).index s' n' o' <
        3 * (hmm.Nodes.length + 1) * (seq.Len + 1) := fun s' n' o' hs' hn' ho' =>
    index_lt_size _ _ _ hnodes0 s' n' o' hs' hn' ho'
  refine ⟨hnodes0, by simpa [seededTable] using hlen0, ?_⟩
  intro s n o hs hn ho
  have hidxeq : (seededTable hmm seq).index s n o =
      ((AllocTable hmm.Nodes.length seq.Len).reset).index s n o := rfl
  by_cases hc : s = HMMState.Match ∧ n = 0 ∧ o = 0
  · obtain ⟨rfl, rfl, rfl⟩ := hc
    show (((AllocTable hmm.Nodes.length seq.Len).reset).scores.set
        (((AllocTable hmm.Nodes.length seq.Len).reset).index .Match 0 0) 0).getD _ MinProb = _
    rw [hidxeq]
    rw [List.getD_eq_getElem _ MinProb
        (by rw [List.length_set, hlen0]; exact hidxlt _ _ _ (by decide) (by omega) (by omega)),
      List.getElem_set_self]
    rw [specInit, if_pos ⟨rfl, rfl, rfl⟩]
  · have hne : ((AllocTable hmm.Nodes.length seq.Len).reset).index s n o ≠
        ((AllocTable hmm.Nodes.length seq.Len).reset).index HMMState.Match 0 0 := by
      intro hcontra
      exact hc (index_inj _ _ hnodes0 hs (by decide) hn (by omega) hcontra)
    show (((AllocTable hmm.Nodes.length seq.Len).reset).scores.set
        (((AllocTable hmm.Nodes.length seq.Len).reset).index .Match 0 0) 0).getD _ MinProb = _
    rw [hidxeq]
    rw [List.getD_eq_getD_get?, List.get?_set_ne _ _ (Ne.symm hne), ← List.getD_eq_getD_get?]
    rw [hscores, List.getD_eq_getElem _ MinProb
        (by rw [List.length_replicate]; exact hidxlt s n o hs hn ho)]
    rw [List.getElem_replicate, specInit, if_neg hc]

/-- C1: `ViterbiScore` equals the reference dynamic program of spec
§4.3: a `3 × (nodeCount+1) × (seqLen+1)` table initialized to `MinProb`
except `cell(Match, 0, 0) = 0`, the recurrence's propose-updates applied
for each node and observation (each keeping the numerically smaller
value, ties keeping the value already present), and the score read from
`cell(Match, nodeCount, seqLen)`.  (The recurrence of §4.3 consists of
seven proposes — three from Match, two from Insertion, two from
Deletion.) -/
theorem viterbiScore_eq_specViterbiScore (hmm : HMM) (seq : Sequence) :
    hmm.ViterbiScore seq = specViterbiScore hmm seq := by
  have relInit := TblRel.init hmm seq
  have relFinal := TblRel.foldl_rel
    (fun t node => (List.range seq.Len).foldl (viterbiStep hmm seq node) t)
    (fun f node => (List.range seq.Len).foldl (specStep hmm seq node) f)
    (List.range hmm.Nodes.length)
    (fun x hx r => TblRel.foldl_rel (viterbiStep hmm seq x) (specStep hmm seq x)
      (List.range seq.Len)
      (fun y hy r' => r'.viterbiStep_rel hmm seq rfl rfl
        (List.mem_range.mp hx) (List.mem_range.mp hy)) r)
    relInit
  have hread := relFinal.getP_eq HMMState.Match hmm.Nodes.length seq.Len
    (by decide) (by omega) (by omega)
  exact hread

end Seq
